import Mathlib

/-!
Verification of the incremental compilation / emission core of gulp-typescript
(src/lib/compiler.ts), shallowly embedded in Lean.

The source file contains two compiler layers:
  * `ProjectCompiler.inputDone` (empty-input short-circuit, change detection,
    cache replay, fresh compilation), modelled in namespace `ProjCompiler` as
    a pure function from a project state to the list of output-sink events it
    performs;
  * the older `Project` class (`compile`, `sortedEmit`, `getOriginalName`,
    `removeSourceMapComment`), modelled in namespace `Proj`.

Strings are represented by Lean `String`; character-level operations
(JavaScript `substr`, `lastIndexOf`, `substring`, regex suffix replacement)
are modelled on the underlying `List Char`, following the ECMAScript
semantics of the exact call sites in the source.  The external TypeScript
toolchain (`ts.createProgram`, `getDiagnostics`, `getTypeChecker`,
`emitFiles`) is a black box per the spec; it is abstracted as a record of
the values those calls return.
-/

namespace GulpTs

/-- The characters of the suffix `".d.ts"`. -/
def dtsChars : List Char := ['.', 'd', '.', 't', 's']

/-- The characters of the suffix `".js"`. -/
def jsChars : List Char := ['.', 'j', 's']

/-- The characters of the suffix `".map"`. -/
def mapChars : List Char := ['.', 'm', 'a', 'p']

/-- The characters of the suffix `".ts"`. -/
def tsChars : List Char := ['.', 't', 's']

/-- JavaScript `s.substr(-n) === suf` for a suffix `suf` of length `n`:
true exactly when `suf` is a suffix of `s`. -/
def endsIn (s suffix : List Char) : Bool :=
  decide (suffix.length ≤ s.length) && decide (s.drop (s.length - suffix.length) = suffix)

/-- The wildcard suffix test of the regex alternative `\.js.map$` (the dot
before `map` is unescaped in the source, so it matches any character). -/
def jsAnyMap (s : List Char) : Bool :=
  decide (7 ≤ s.length) &&
    (match s.drop (s.length - 7) with
     | '.' :: 'j' :: 's' :: _ :: 'm' :: 'a' :: 'p' :: [] => true
     | _ => false)

/-- `Project.getOriginalName`, character level: JavaScript
`filename.replace(/(\.d\.ts|\.js|\.js.map)$/, '.ts')`.  All three regex
alternatives are anchored at the end of the string and are mutually
exclusive (they require distinct characters near the end), so
leftmost-match replacement reduces to this case split. -/
def getOriginalNameL (s : List Char) : List Char :=
  if endsIn s dtsChars then s.take (s.length - 5) ++ tsChars
  else if endsIn s jsChars then s.take (s.length - 3) ++ tsChars
  else if jsAnyMap s then s.take (s.length - 7) ++ tsChars
  else s

/-- `Project.getOriginalName` on strings. -/
def getOriginalName (s : String) : String := String.mk (getOriginalNameL s.data)

/-- JavaScript `content.lastIndexOf('\n', i)`: the largest position `j ≤ i`
holding a newline, if any (searching downward from `i`). -/
def lastNlAux (c : List Char) : Nat → Option Nat
  | 0 => if c.getD 0 ' ' = '\n' then some 0 else none
  | i + 1 => if c.getD (i + 1) ' ' = '\n' then some (i + 1) else lastNlAux c i

/-- `Project.removeSourceMapComment`, character level:
`var index = content.lastIndexOf('\n', content.length - 2);
 return content.substring(0, index) + '\n';`
(`substring(0, -1)` clamps the negative end to 0 and yields the empty
string, hence the `none` branch). -/
def removeSourceMapCommentL (content : List Char) : List Char :=
  match lastNlAux content (content.length - 2) with
  | some i => content.take i ++ ['\n']
  | none => ['\n']

/-- `Project.removeSourceMapComment` on strings. -/
def removeSourceMapComment (s : String) : String :=
  String.mk (removeSourceMapCommentL s.data)

namespace ProjCompiler

/-- One cached output file of the previous build
(`project.previousOutput.files[key]`): its base name and the contents of its
JavaScript, SourceMap and (optional) Definitions artifacts
(`file.content[OutputFileKind.*]`). -/
structure CachedFile where
  fileName : String
  jsContent : String
  mapContent : String
  dtsContent : Option String
deriving DecidableEq

/-- The previous build result (`project.previousOutput`): cached errors and
cached files keyed by original path, enumerated in insertion order as
`Object.keys` does. -/
structure PreviousOutput where
  errors : List String
  files : List (String × CachedFile)
deriving DecidableEq

/-- The facts `inputDone` reads from `project.input` (the input module is
not part of the analysed source): whether any source file was supplied
(`input.firstSourceFile` truthiness) and the result of
`input.isChanged(true)`. -/
structure InputState where
  hasFirstSourceFile : Bool
  changed : Bool
deriving DecidableEq

/-- The black-box result of the toolchain invocation performed in the
changed branch: the diagnostics returned by
`tsApi.getDiagnosticsAndEmit(program)` and the files found in
`host.output` afterwards (in enumeration order). -/
structure CompilerResult where
  diagnostics : List String
  outputFiles : List (String × String)
deriving DecidableEq

/-- The project state `ProjectCompiler.inputDone` operates on. -/
structure ProjectState where
  input : InputState
  previousOutput : PreviousOutput
  compilerResult : CompilerResult
deriving DecidableEq

/-- One observable interaction of `inputDone` with its collaborators:
`output.error`, `output.diagnostic`, `output.write`, creation of the Host
Adapter (`new host.Host(...)`), the compiler invocation
(`createProgram` + `getDiagnosticsAndEmit`), and `output.finish`. -/
inductive Event where
  | error : String → Event
  | diagnostic : String → Event
  | write : String → String → Event
  | hostCreated : Event
  | compilerInvoked : Event
  | finish : Event
deriving DecidableEq

/-- The writes the replay branch performs for one cached file:
`output.write(file.fileName + '.js', ...)`, then `'.js.map'`, then
`'.d.ts'` when the Definitions artifact is present. -/
def replayWrites (f : CachedFile) : List Event :=
  [Event.write (f.fileName ++ ".js") f.jsContent,
   Event.write (f.fileName ++ ".js.map") f.mapContent] ++
  (match f.dtsContent with
   | some d => [Event.write (f.fileName ++ ".d.ts") d]
   | none => [])

/-- `ProjectCompiler.inputDone` as the list of events it performs, in
order.  Branch 1: no first source file — finish immediately.  Branch 2:
`isChanged(true)` is false — re-emit every cached error and rewrite every
cached artifact, then return (without `finish`).  Branch 3: build the Host
Adapter, invoke the compiler (the root-filename filter only affects the
black-box `CompilerResult`), forward each diagnostic, write each host
output file, and finish. -/
def inputDone (s : ProjectState) : List Event :=
  if s.input.hasFirstSourceFile = false then [Event.finish]
  else if s.input.changed = false then
    s.previousOutput.errors.map Event.error ++
      s.previousOutput.files.foldr (fun kv acc => replayWrites kv.2 ++ acc) []
  else
    Event.hostCreated :: Event.compilerInvoked ::
      (s.compilerResult.diagnostics.map Event.diagnostic ++
       s.compilerResult.outputFiles.map (fun kv => Event.write kv.1 kv.2) ++
       [Event.finish])

/-- A concrete project state used to witness C1: one cached error, one
cached file with a Declaration artifact, and a nonempty (ignored)
compiler result. -/
def c1State : ProjectState :=
  ⟨⟨true, false⟩,
   ⟨["stale error"], [("a.ts", ⟨"a", "var a;\n", "mapdata", some "decl"⟩)]⟩,
   ⟨["fresh diag"], [("ignored.js", "ignored")]⟩⟩

/-- The same cache as `c1State` but a different compiler result. -/
def c1StateB : ProjectState :=
  ⟨⟨true, false⟩,
   ⟨["stale error"], [("a.ts", ⟨"a", "var a;\n", "mapdata", some "decl"⟩)]⟩,
   ⟨[], []⟩⟩

/-- A concrete project state used to witness C6: no input files, but a
nonempty cache that must not be replayed. -/
def c6State : ProjectState :=
  ⟨⟨false, false⟩,
   ⟨["stale error"], [("a.ts", ⟨"a", "var a;\n", "mapdata", none⟩)]⟩,
   ⟨[], []⟩⟩

end ProjCompiler

namespace Proj

/-- The data `Project.compile` uses from one entry of
`project.currentFiles` (a pipeline-supplied input file): its
working-directory and base metadata and its optional inbound source map. -/
structure FileData where
  cwd : String
  base : String
  sourceMap : Option String
deriving DecidableEq

/-- A compiler diagnostic (`ts.Diagnostic`): originating file name, the
0-based line/character resolved by `getLineAndCharacterFromPosition`, the
numeric code and the message text. -/
structure Diagnostic where
  fileName : String
  line : Nat
  character : Nat
  code : Nat
  messageText : String
deriving DecidableEq

/-- The error value `Project.getError` builds for a diagnostic: the fixed
name tag and the parts of the formatted message (the color wrapper of the
reported file/position prefix is external formatting and not modelled as a
byte string). -/
structure TsError where
  name : String
  shownFileName : String
  line : Nat
  character : Nat
  code : Nat
  messageText : String
deriving DecidableEq

/-- Black-box result of the toolchain for one `compile` call:
`program.getDiagnostics()`, `checker.getDiagnostics()`,
`checker.emitFiles().errors`, the files `emitFiles` writes through the
host (with the unique keys of the `host.output` object, in enumeration
order), and `program.getSourceFile(name).referencedFiles` per original
name.  Modelled from the spec: the host module is not part of the
analysed source; per the spec the Host Adapter starts each compilation
with an empty output collection and only `Program.emit()` produces
per-file artifacts, so `host.output` holds `emitOutput` exactly when
`emitFiles` has run. -/
structure ProgModel where
  syntacticDiags : List Diagnostic
  semanticDiags : List Diagnostic
  emitErrors : List Diagnostic
  emitOutput : List (String × String)
  referencedFiles : String → List String

/-- `Project.getError`: derive the original name, look it up among the
current files, and report the path relative to that file's working
directory when found (`path.relative` is an external collaborator, passed
in as `rel`), or the diagnostic's own file name otherwise; positions are
reported 1-based. -/
def getError (rel : String → String → String) (cf : List (String × FileData))
    (info : Diagnostic) : TsError :=
  match List.lookup (getOriginalName info.fileName) cf with
  | some fd =>
      ⟨"TypeScript error", rel fd.cwd info.fileName, info.line + 1, info.character + 1,
        info.code, info.messageText⟩
  | none =>
      ⟨"TypeScript error", info.fileName, info.line + 1, info.character + 1,
        info.code, info.messageText⟩

/-- A `gutil.File` pushed to the JavaScript or declaration stream: path,
contents, metadata copied from the original input file, the inbound source
map copied from the original (JavaScript branch only), and the source map
applied by `sourcemapApply` (if any). -/
structure OutFile where
  path : String
  contents : String
  cwd : String
  base : String
  sourceMap : Option String
  appliedMap : Option String
deriving DecidableEq

/-- State of the artifact-classification loop of `Project.compile`: the
`outputJS` array, the files already pushed to `declStream`, and the
`sourcemaps` mapping (keyed, as in the source, by the emitted map file's
own name). -/
structure ClassifyState where
  outputJS : List OutFile
  declPushed : List OutFile
  sourcemaps : List (String × String)
deriving DecidableEq

/-- One iteration of the `for (var filename in this.host.output)` loop of
`Project.compile`: derive the original name; drop the artifact when no
current file matches; otherwise dispatch on the suffix checks
`substr(-3) === '.js'`, `substr(-5) === '.d.ts'`, `substr(-4) === '.map'`
(in that order).  JavaScript/declaration contents pass through
`removeSourceMapComment`; the declaration file is pushed immediately; the
map data is stored under `filename`. -/
def classifyStep (cf : List (String × FileData)) (st : ClassifyState)
    (kv : String × String) : ClassifyState :=
  match List.lookup (getOriginalName kv.1) cf with
  | none => st
  | some original =>
    if endsIn kv.1.data jsChars then
      { st with outputJS := st.outputJS ++
          [⟨kv.1, removeSourceMapComment kv.2, original.cwd, original.base,
            original.sourceMap, none⟩] }
    else if endsIn kv.1.data dtsChars then
      { st with declPushed := st.declPushed ++
          [⟨kv.1, removeSourceMapComment kv.2, original.cwd, original.base,
            none, none⟩] }
    else if endsIn kv.1.data mapChars then
      { st with sourcemaps := st.sourcemaps ++ [(kv.1, kv.2)] }
    else st

/-- The `emit` closure of `Project.compile`: look the original name up in
the `sourcemaps` mapping, apply the map when the lookup yields a truthy
value (`sourcemapApply`), and push the file to the JavaScript stream. -/
def emitOne (smaps : List (String × String)) (originalName : String) (file : OutFile)
    (pushed : List OutFile) : List OutFile :=
  match List.lookup originalName smaps with
  | some m => if m = "" then pushed ++ [file] else pushed ++ [{ file with appliedMap := some m }]
  | none => pushed ++ [file]

/-- State threaded through sorted emission: the `done` map and the files
pushed to the JavaScript stream so far. -/
structure EmitSt where
  done : List String
  pushed : List OutFile
deriving DecidableEq

/-- The `for (var j ...)` loop inside the `sortedEmit` closure: walk
`outputJS` and, for every entry whose derived original name occurs in the
reference list of the current file, run the recursive emission (passed in
as `emitFn`) on it. -/
def sortedEmitLoop (emitFn : String → OutFile → EmitSt → EmitSt)
    (references : List String) : List OutFile → EmitSt → EmitSt
  | [], st => st
  | other :: rest, st =>
      sortedEmitLoop emitFn references rest
        (if getOriginalName other.path ∈ references then
          emitFn (getOriginalName other.path) other st
        else st)

/-- The recursive `sortedEmit` closure of `Project.compile`: return when
the original name is already `done`; otherwise mark it done, recursively
emit every referenced file that has a compiled artifact, then emit the
current file.  The source recursion carries no fuel; the `Nat` argument is
an explicit recursion budget, and the theorems below show the result is
independent of the budget once it reaches the number of distinct original
names, which is exactly termination of the unbounded recursion. -/
def sortedEmit (refs : String → List String) (smaps : List (String × String))
    (outputJS : List OutFile) : Nat → String → OutFile → EmitSt → EmitSt
  | 0, _, _, st => st
  | fuel + 1, originalName, file, st =>
    if originalName ∈ st.done then st
    else
      let st2 := sortedEmitLoop (sortedEmit refs smaps outputJS fuel)
        (refs originalName) outputJS ⟨originalName :: st.done, st.pushed⟩
      ⟨st2.done, emitOne smaps originalName file st2.pushed⟩

/-- The `for (var i ...)` driver of sorted emission: run `sortedEmit` on
every entry of `outputJS` in order, starting from an empty `done` map. -/
def sortedEmitAll (refs : String → List String) (smaps : List (String × String))
    (outputJS : List OutFile) (fuel : Nat) : EmitSt :=
  outputJS.foldl
    (fun st file => sortedEmit refs smaps outputJS fuel (getOriginalName file.path) file st)
    ⟨[], []⟩

/-- The result of one `Project.compile` call: the error values handed to
`errorCallback` one at a time and in order, and the files pushed to
`jsStream` and `declStream`. -/
structure CompileResult where
  errCalls : List TsError
  jsPushed : List OutFile
  declPushed : List OutFile
deriving DecidableEq

/-- `Project.compile`: collect `program.getDiagnostics()`; only when that
list is empty run the type checker and `emitFiles` (so `host.output` stays
empty otherwise) and use `semanticErrors.concat(emitErrors)`; forward every
error through `getError` to the callback; classify the host output; then
push the JavaScript files either in natural order or through `sortedEmit`.
The fuel passed to sorted emission, `outputJS.length + 1`, is sufficient
(theorems below). -/
def compile (rel : String → String → String) (p : ProgModel)
    (cf : List (String × FileData)) (sortOutput : Bool) : CompileResult :=
  let errors := if p.syntacticDiags.isEmpty then p.semanticDiags ++ p.emitErrors
    else p.syntacticDiags
  let hostOutput := if p.syntacticDiags.isEmpty then p.emitOutput else []
  let cls := hostOutput.foldl (classifyStep cf) ⟨[], [], []⟩
  let jsPushed :=
    if sortOutput then
      (sortedEmitAll p.referencedFiles cls.sourcemaps cls.outputJS
        (cls.outputJS.length + 1)).pushed
    else
      cls.outputJS.foldl (fun acc f => emitOne cls.sourcemaps (getOriginalName f.path) f acc) []
  ⟨errors.map (getError rel cf), jsPushed, cls.declPushed⟩

/-- The original name an emitted artifact derives from. -/
def origOf (f : OutFile) : String := getOriginalName f.path

/-- The original names of the artifacts of `outputJS`. -/
def namesOf (outputJS : List OutFile) : List String := outputJS.map origOf

/-- The original names of the files pushed so far. -/
def pushedNames (st : EmitSt) : List String := st.pushed.map origOf

/-- Number of distinct original names of `outputJS` not yet marked done:
the quantity that shrinks at every productive `sortedEmit` call. -/
def remaining (outputJS : List OutFile) (done : List String) : Nat :=
  ((namesOf outputJS).dedup.filter (fun x => decide (x ∉ done))).length

/-- Run-time invariant of sorted emission: `done` has no duplicates, every
pushed name is done, pushed names have no duplicates, and every done name
derives from some artifact. -/
def Inv (outputJS : List OutFile) (st : EmitSt) : Prop :=
  st.done.Nodup ∧
  (∀ x ∈ pushedNames st, x ∈ st.done) ∧
  (pushedNames st).Nodup ∧
  (∀ x ∈ st.done, x ∈ namesOf outputJS)

/-- The reference relation between original names restricted to files with
a compiled artifact: `a` lists `b` among its reference directives and both
have artifacts in `outputJS`. -/
def refRel (refs : String → List String) (outputJS : List OutFile) (a b : String) : Prop :=
  b ∈ refs a ∧ a ∈ namesOf outputJS ∧ b ∈ namesOf outputJS

/-- A relation with no (non-trivial or trivial) cycle. -/
def Acyclic (R : String → String → Prop) : Prop :=
  ∀ x, ¬ Relation.TransGen R x x

/-- Every name marked done but not yet pushed (a file whose emission is in
progress higher up the recursion) reaches `n` through the reference
relation. -/
def graySub (R : String → String → Prop) (st : EmitSt) (n : String) : Prop :=
  ∀ g ∈ st.done, g ∉ pushedNames st → Relation.TransGen R g n

/-- Dependency ordering of a pushed-name list: whenever `R a b` and `a`
occurs, `b` occurs earlier. -/
def depsBefore (R : String → String → Prop) (l : List String) : Prop :=
  ∀ a b, R a b → a ∈ l → b ∈ l ∧ List.indexOf b l < List.indexOf a l

/-- Relation between a state and a later state of sorted emission: the
`done` list grew by a duplicate-free block of fresh artifact names and the
push list grew by files carrying exactly those names (in some order). -/
def SEPost (outputJS : List OutFile) (st stF : EmitSt) : Prop :=
  ∃ new Δ, stF.done = new ++ st.done ∧ stF.pushed = st.pushed ++ Δ ∧
    new.Nodup ∧ (∀ x ∈ new, x ∈ namesOf outputJS ∧ x ∉ st.done) ∧
    (Δ.map origOf).Perm new

/-- A trivial stand-in for the external `path.relative` collaborator, used
in concrete instances. -/
def relId : String → String → String := fun _ s => s

/-- Concrete current-files mapping with a single input file `a.ts`. -/
def cfA : List (String × FileData) := [("a.ts", ⟨"/cwd", "/base", none⟩)]

/-- Concrete toolchain result exhibiting the failing input of C4: a clean
compilation that emitted `a.js` together with its source map `a.js.map`. -/
def c4Prog : ProgModel :=
  ⟨[], [], [], [("a.js", "var a;\n//# sourceMappingURL=a.js.map\n"), ("a.js.map", "MAPDATA")],
   fun _ => []⟩

/-- Concrete toolchain result witnessing C9: one syntactic diagnostic and
a (stale, never-consulted) emit output. -/
def c9Prog : ProgModel :=
  ⟨[⟨"a.ts", 0, 4, 1005, "expected ;"⟩], [], [], [("a.js", "var a;\n\n")], fun _ => []⟩

/-- Concrete current-files mapping for the ordering witnesses: `a.ts`,
`b.ts` and `c.ts`. -/
def cfABC : List (String × FileData) :=
  [("a.ts", ⟨"/cwd", "/base", none⟩), ("b.ts", ⟨"/cwd", "/base", none⟩),
   ("c.ts", ⟨"/cwd", "/base", none⟩)]

/-- The emitted JavaScript artifacts of the ordering witnesses, in the
unfavourable enumeration order `a.js`, `b.js`, `c.js`. -/
def ojABC : List OutFile :=
  [⟨"a.js", "A", "/cwd", "/base", none, none⟩,
   ⟨"b.js", "B", "/cwd", "/base", none, none⟩,
   ⟨"c.js", "C", "/cwd", "/base", none, none⟩]

/-- Acyclic reference directives for the C2 witness: `a.ts` references
`b.ts`, which references `c.ts`. -/
def refsChain : String → List String :=
  fun s => if s = "a.ts" then ["b.ts"] else if s = "b.ts" then ["c.ts"] else []

/-- A topological rank for `refsChain`, used to discharge acyclicity. -/
def rankChain : String → Nat :=
  fun s => if s = "a.ts" then 2 else if s = "b.ts" then 1 else 0

/-- Cyclic reference directives for the C3 witness: `a.ts` and `b.ts`
reference each other. -/
def refsCyc : String → List String :=
  fun s => if s = "a.ts" then ["b.ts"] else if s = "b.ts" then ["a.ts"] else []

/-- The emitted JavaScript artifacts of the C3 witness. -/
def ojAB : List OutFile :=
  [⟨"a.js", "A", "/cwd", "/base", none, none⟩,
   ⟨"b.js", "B", "/cwd", "/base", none, none⟩]

end Proj

/-! ## General lemmas about the string-level operations -/

theorem stringMk_data (s : String) : String.mk s.data = s := by
  cases s
  rfl

theorem endsIn_iff (s suffix : List Char) :
    endsIn s suffix = true ↔
      suffix.length ≤ s.length ∧ s.drop (s.length - suffix.length) = suffix := by
  simp [endsIn]

theorem endsIn_dts_iff (s : List Char) :
    endsIn s dtsChars = true ↔ 5 ≤ s.length ∧ s.drop (s.length - 5) = dtsChars := by
  rw [endsIn_iff]
  norm_num [dtsChars]

theorem endsIn_js_iff (s : List Char) :
    endsIn s jsChars = true ↔ 3 ≤ s.length ∧ s.drop (s.length - 3) = jsChars := by
  rw [endsIn_iff]
  norm_num [jsChars]

theorem endsIn_append (a suffix : List Char) : endsIn (a ++ suffix) suffix = true := by
  rw [endsIn_iff]
  constructor
  · simp
  · have h : (a ++ suffix).length - suffix.length = a.length := by simp
    rw [h, List.drop_left]

theorem endsIn_decomp (s suffix : List Char) (h : endsIn s suffix = true) :
    s = s.take (s.length - suffix.length) ++ suffix := by
  rw [endsIn_iff] at h
  conv_lhs => rw [← List.take_append_drop (s.length - suffix.length) s]
  rw [h.2]

/-- A string ending in `".d.ts"` does not end in `".js"`. -/
theorem not_js_of_dts (s : List Char) (h : endsIn s dtsChars = true) :
    endsIn s jsChars = false := by
  rw [endsIn_dts_iff] at h
  by_contra hb
  rw [Bool.not_eq_false, endsIn_js_iff] at hb
  have hlen : (5 : Nat) ≤ s.length := h.1
  have h3 : s.length - 3 = 2 + (s.length - 5) := by omega
  have hdd : s.drop (s.length - 3) = List.drop 2 (s.drop (s.length - 5)) := by
    rw [List.drop_drop, Nat.add_comm, ← h3]
  rw [hb.2, h.2] at hdd
  simp [jsChars, dtsChars] at hdd

/-- A string ending in `".js"` does not end in `".d.ts"`. -/
theorem not_dts_of_js (s : List Char) (h : endsIn s jsChars = true) :
    endsIn s dtsChars = false := by
  by_contra hb
  rw [Bool.not_eq_false] at hb
  rw [not_js_of_dts s hb] at h
  exact Bool.false_ne_true h

theorem getOriginalNameL_js (s : List Char) (h : endsIn s jsChars = true) :
    getOriginalNameL s = s.take (s.length - 3) ++ tsChars := by
  rw [getOriginalNameL, not_dts_of_js s h, h]
  simp [jsChars]

theorem getOriginalNameL_dts (s : List Char) (h : endsIn s dtsChars = true) :
    getOriginalNameL s = s.take (s.length - 5) ++ tsChars := by
  rw [getOriginalNameL, h]
  simp [dtsChars]

/-- `getOriginalName` is injective on names of JavaScript artifacts. -/
theorem getOriginalName_inj_js (a b : String)
    (ha : endsIn a.data jsChars = true) (hb : endsIn b.data jsChars = true)
    (h : getOriginalName a = getOriginalName b) : a = b := by
  have hdata : getOriginalNameL a.data = getOriginalNameL b.data := by
    have := congrArg String.data h
    simpa [getOriginalName] using this
  rw [getOriginalNameL_js _ ha, getOriginalNameL_js _ hb] at hdata
  have htake : a.data.take (a.data.length - 3) = b.data.take (b.data.length - 3) :=
    List.append_cancel_right hdata
  have hA : a.data = a.data.take (a.data.length - 3) ++ jsChars := by
    simpa [jsChars] using endsIn_decomp a.data jsChars ha
  have hB : b.data = b.data.take (b.data.length - 3) ++ jsChars := by
    simpa [jsChars] using endsIn_decomp b.data jsChars hb
  have hd : a.data = b.data := by
    rw [hA, hB, htake]
  calc a = String.mk a.data := (stringMk_data a).symm
    _ = String.mk b.data := by rw [hd]
    _ = b := stringMk_data b

/-- If the character at the searched position is a newline, the downward
search stops there. -/
theorem lastNlAux_self (c : List Char) (n : Nat) (h : c.getD n ' ' = '\n') :
    lastNlAux c n = some n := by
  cases n with
  | zero => rw [lastNlAux, if_pos h]
  | succ k => rw [lastNlAux, if_pos h]

theorem getD_append_left (a b : List Char) (i : Nat) (h : i < a.length) :
    (a ++ b).getD i ' ' = a.getD i ' ' := by
  rw [List.getD_eq_getElem?_getD, List.getD_eq_getElem?_getD,
    List.getElem?_append_left h]

theorem getD_append_right (a b : List Char) (i : Nat) (h : a.length ≤ i) :
    (a ++ b).getD i ' ' = b.getD (i - a.length) ' ' := by
  rw [List.getD_eq_getElem?_getD, List.getD_eq_getElem?_getD,
    List.getElem?_append_right h]

/-- Searching downward from any position inside the no-newline segment `L`
of `p ++ '\n' :: L ++ ['\n']` finds the separating newline at position
`p.length`. -/
theorem lastNlAux_sep (p L : List Char) (hL : '\n' ∉ L) :
    ∀ j, j ≤ L.length →
      lastNlAux (p ++ '\n' :: (L ++ ['\n'])) (p.length + j) = some p.length := by
  intro j
  induction j with
  | zero =>
    intro _
    have hget : (p ++ '\n' :: (L ++ ['\n'])).getD p.length ' ' = '\n' := by
      rw [getD_append_right p _ p.length le_rfl, Nat.sub_self]
      exact List.getD_cons_zero
    simpa using lastNlAux_self _ _ hget
  | succ j ih =>
    intro hj
    have hj' : j ≤ L.length := by omega
    have hget : (p ++ '\n' :: (L ++ ['\n'])).getD (p.length + (j + 1)) ' ' = L.getD j ' ' := by
      rw [getD_append_right p _ _ (by omega)]
      have h1 : p.length + (j + 1) - p.length = j + 1 := by omega
      rw [h1, List.getD_cons_succ, getD_append_left _ _ _ (by omega)]
    have hne : L.getD j ' ' ≠ '\n' := by
      intro hc
      have hjlt : j < L.length := by omega
      rw [List.getD_eq_getElem _ _ hjlt] at hc
      exact hL (hc ▸ List.getElem_mem hjlt)
    have hstep : p.length + (j + 1) = (p.length + j) + 1 := by omega
    rw [hstep, lastNlAux]
    rw [show p.length + j + 1 = p.length + (j + 1) from by omega, hget]
    simp only [if_neg hne]
    exact ih hj'

theorem removeSourceMapCommentL_eq (p L : List Char) (hL : '\n' ∉ L) :
    removeSourceMapCommentL (p ++ '\n' :: (L ++ ['\n'])) = p ++ ['\n'] := by
  have hlen : (p ++ '\n' :: (L ++ ['\n'])).length = p.length + L.length + 2 := by
    simp
    omega
  have hidx : (p ++ '\n' :: (L ++ ['\n'])).length - 2 = p.length + L.length := by omega
  rw [removeSourceMapCommentL, hidx, lastNlAux_sep p L hL L.length le_rfl]
  simp [List.take_left]

/-! ## Claim C5 -/

/-- Claim C5: for every CompiledCode artifact whose content ends in a
trailing comment line `L` (containing no newline) followed by a final
newline, `removeSourceMapComment` removes exactly that last line: the
result is the original content minus the final line, byte-identical up to
that point, with the trailing newline preserved. -/
theorem claim5_strip_last_line (p L : List Char) (hL : '\n' ∉ L) :
    removeSourceMapComment (String.mk (p ++ '\n' :: (L ++ ['\n']))) =
      String.mk (p ++ ['\n']) := by
  rw [removeSourceMapComment]
  have : (String.mk (p ++ '\n' :: (L ++ ['\n']))).data = p ++ '\n' :: (L ++ ['\n']) := rfl
  rw [this, removeSourceMapCommentL_eq p L hL]

/-- Witness for C5 at a concrete artifact: stripping
`"var x;\n//# sourceMappingURL=a.js.map\n"` yields `"var x;\n"`. -/
theorem claim5_strip_last_line_witness :
    '\n' ∉ "//# sourceMappingURL=a.js.map".data ∧
      removeSourceMapComment
          (String.mk ("var x;".data ++ '\n' :: ("//# sourceMappingURL=a.js.map".data ++ ['\n']))) =
        String.mk ("var x;".data ++ ['\n']) :=
  ⟨by decide, claim5_strip_last_line "var x;".data "//# sourceMappingURL=a.js.map".data (by decide)⟩

namespace ProjCompiler

/-! ## Claims C1 and C6 (`ProjectCompiler.inputDone`) -/

theorem mem_foldr_append {β : Type} (g : β → List Event) (l : List β) (e : Event) :
    e ∈ l.foldr (fun b acc => g b ++ acc) [] ↔ ∃ b ∈ l, e ∈ g b := by
  induction l with
  | nil => simp
  | cons a t ih => simp [ih]

theorem replayWrites_shape (f : CachedFile) (e : Event) (h : e ∈ replayWrites f) :
    ∃ n c, e = Event.write n c := by
  rw [replayWrites] at h
  rcases List.mem_append.1 h with h1 | h2
  · simp only [List.mem_cons, List.not_mem_nil, or_false] at h1
    rcases h1 with h1 | h1 <;> exact ⟨_, _, h1⟩
  · cases hd : f.dtsContent with
    | none =>
      rw [hd] at h2
      exact absurd h2 (List.not_mem_nil e)
    | some d =>
      rw [hd] at h2
      simp only [List.mem_cons, List.not_mem_nil, or_false] at h2
      exact ⟨_, _, h2⟩

theorem inputDone_replay_eq (s : ProjectState)
    (h1 : s.input.hasFirstSourceFile = true) (h2 : s.input.changed = false) :
    inputDone s = s.previousOutput.errors.map Event.error ++
      s.previousOutput.files.foldr (fun kv acc => replayWrites kv.2 ++ acc) [] := by
  rw [inputDone, if_neg (by simp [h1]), if_pos h2]

/-- Claim C1: when the change detector reports no change (and at least one
input file exists), `inputDone` replays the previous build: its event
trace is exactly every cached error re-emitted verbatim followed by, for
every cached original path, the unmodified writes of its CompiledCode and
SourceMap artifacts and of its Declaration artifact when present; the
trace contains no Host Adapter creation and no compiler invocation; and
the trace is determined by the cached previous output alone, so replaying
the same cache twice yields byte-identical output both times. -/
theorem claim1_replay (s : ProjectState)
    (h1 : s.input.hasFirstSourceFile = true) (h2 : s.input.changed = false) :
    inputDone s =
      s.previousOutput.errors.map Event.error ++
        s.previousOutput.files.foldr (fun kv acc =>
          ([Event.write (kv.2.fileName ++ ".js") kv.2.jsContent,
            Event.write (kv.2.fileName ++ ".js.map") kv.2.mapContent] ++
           (match kv.2.dtsContent with
            | some d => [Event.write (kv.2.fileName ++ ".d.ts") d]
            | none => [])) ++ acc) [] ∧
    Event.compilerInvoked ∉ inputDone s ∧
    Event.hostCreated ∉ inputDone s ∧
    ∀ t : ProjectState, t.input.hasFirstSourceFile = true → t.input.changed = false →
      t.previousOutput = s.previousOutput → inputDone t = inputDone s := by
  have e1 := inputDone_replay_eq s h1 h2
  refine ⟨by rw [e1]; rfl, ?_, ?_, ?_⟩
  · rw [e1]
    intro hmem
    rcases List.mem_append.1 hmem with hm | hm
    · rcases List.mem_map.1 hm with ⟨x, _, hx⟩
      cases hx
    · rcases (mem_foldr_append _ _ _).1 hm with ⟨kv, _, hkv⟩
      rcases replayWrites_shape _ _ hkv with ⟨n, c, hc⟩
      cases hc
  · rw [e1]
    intro hmem
    rcases List.mem_append.1 hmem with hm | hm
    · rcases List.mem_map.1 hm with ⟨x, _, hx⟩
      cases hx
    · rcases (mem_foldr_append _ _ _).1 hm with ⟨kv, _, hkv⟩
      rcases replayWrites_shape _ _ hkv with ⟨n, c, hc⟩
      cases hc
  · intro t ht1 ht2 htp
    rw [inputDone_replay_eq t ht1 ht2, e1, htp]

/-- Witness for C1: at `c1State` the replay trace is the cached error
followed by the three cached writes, contains no compiler invocation, and
coincides with the trace of a state sharing only the cache. -/
theorem claim1_replay_witness :
    c1State.input.hasFirstSourceFile = true ∧ c1State.input.changed = false ∧
    inputDone c1State =
      [Event.error "stale error",
       Event.write "a.js" "var a;\n",
       Event.write "a.js.map" "mapdata",
       Event.write "a.d.ts" "decl"] ∧
    Event.compilerInvoked ∉ inputDone c1State ∧
    inputDone c1StateB = inputDone c1State := by
  have h := claim1_replay c1State rfl rfl
  exact ⟨rfl, rfl, by rw [h.1]; rfl, h.2.1, h.2.2.2 c1StateB rfl rfl rfl⟩

/-- Claim C6: with an empty input file set, `inputDone` finalizes the
build immediately: the trace is exactly `finish`, with zero writes, zero
diagnostics, zero replayed errors, and no Host Adapter creation or
compiler invocation — in particular no cached output is written, so this
terminal condition is distinct from a cache replay. -/
theorem claim6_empty_input (s : ProjectState)
    (h : s.input.hasFirstSourceFile = false) :
    inputDone s = [Event.finish] ∧
    (∀ n c, Event.write n c ∉ inputDone s) ∧
    (∀ d, Event.diagnostic d ∉ inputDone s) ∧
    (∀ e, Event.error e ∉ inputDone s) ∧
    Event.compilerInvoked ∉ inputDone s ∧
    Event.hostCreated ∉ inputDone s := by
  have e1 : inputDone s = [Event.finish] := by
    rw [inputDone, if_pos h]
  refine ⟨e1, ?_, ?_, ?_, ?_, ?_⟩ <;> rw [e1]
  · intro n c hmem
    simp at hmem
  · intro d hmem
    simp at hmem
  · intro e hmem
    simp at hmem
  · intro hmem
    simp at hmem
  · intro hmem
    simp at hmem

/-- Witness for C6: at `c6State` the trace is exactly `finish`, and the
cached artifact of the nonempty cache is not written. -/
theorem claim6_empty_input_witness :
    c6State.input.hasFirstSourceFile = false ∧
    inputDone c6State = [Event.finish] ∧
    Event.write "a.js" "var a;\n" ∉ inputDone c6State := by
  have h := claim6_empty_input c6State rfl
  exact ⟨rfl, h.1, h.2.1 "a.js" "var a;\n"⟩

end ProjCompiler

namespace Proj

/-! ## Claims about `Project.compile` (except sorted emission) -/

theorem classifyStep_unmatched (cf : List (String × FileData)) (st : ClassifyState)
    (fn data : String) (h : List.lookup (getOriginalName fn) cf = none) :
    classifyStep cf st (fn, data) = st := by
  simp only [classifyStep, h]

/-- Claim C7: an emitted artifact whose derived original path has no
matching input file contributes nothing to the compilation result — no
JavaScript push, no declaration push, no stored source map, no error —
and is dropped silently: inserting it anywhere into the host output
leaves the result of `compile` unchanged. -/
theorem claim7_unmatched_dropped (rel : String → String → String)
    (sd smd ee : List Diagnostic) (pre post : List (String × String))
    (refs : String → List String) (cf : List (String × FileData)) (so : Bool)
    (fn data : String) (h : List.lookup (getOriginalName fn) cf = none) :
    compile rel ⟨sd, smd, ee, pre ++ (fn, data) :: post, refs⟩ cf so =
      compile rel ⟨sd, smd, ee, pre ++ post, refs⟩ cf so := by
  cases hsd : sd.isEmpty with
  | false => simp [compile, hsd]
  | true =>
    simp only [compile, hsd, if_true, List.foldl_append, List.foldl_cons,
      classifyStep_unmatched cf _ fn data h]

/-- Witness for C7: the artifact `b.js` derives `b.ts`, which is not
among the current files, so adding it to the host output changes
nothing. -/
theorem claim7_unmatched_dropped_witness :
    List.lookup (getOriginalName "b.js") cfA = none ∧
    compile relId ⟨[], [], [], [("a.js", "var a;\n\n")] ++ ("b.js", "var b;\n\n") :: [], fun _ => []⟩
        cfA false =
      compile relId ⟨[], [], [], [("a.js", "var a;\n\n")] ++ [], fun _ => []⟩ cfA false :=
  ⟨by decide,
   claim7_unmatched_dropped relId [] [] [] [("a.js", "var a;\n\n")] [] (fun _ => []) cfA false
     "b.js" "var b;\n\n" (by decide)⟩

/-- Claim C8: `compile` never turns diagnostics into a thrown failure: it
is a total function whose error output is exactly the diagnostic list
converted element by element through `getError` and handed to the
callback one at a time (never aggregated), and whose emitted artifacts do
not depend on the semantic or emit diagnostics — the build continues and
still pushes the produced artifacts after reporting the diagnostics. -/
theorem claim8_diagnostics_are_data (rel : String → String → String) (p : ProgModel)
    (cf : List (String × FileData)) (so : Bool) :
    (compile rel p cf so).errCalls =
      (if p.syntacticDiags.isEmpty then p.semanticDiags ++ p.emitErrors
        else p.syntacticDiags).map (getError rel cf) ∧
    (compile rel p cf so).jsPushed =
      (compile rel ⟨p.syntacticDiags, [], [], p.emitOutput, p.referencedFiles⟩ cf so).jsPushed ∧
    (compile rel p cf so).declPushed =
      (compile rel ⟨p.syntacticDiags, [], [], p.emitOutput, p.referencedFiles⟩ cf so).declPushed :=
  ⟨rfl, rfl, rfl⟩

/-- Claim C9: a nonempty syntactic diagnostic list makes `compile` skip
type checking and `emitFiles`, so the host output stays empty and no
artifact whatsoever is pushed; only the syntactic diagnostics are
reported. -/
theorem claim9_syntax_errors_suppress_emit (rel : String → String → String) (p : ProgModel)
    (cf : List (String × FileData)) (so : Bool) (h : p.syntacticDiags ≠ []) :
    (compile rel p cf so).jsPushed = [] ∧
    (compile rel p cf so).declPushed = [] ∧
    (compile rel p cf so).errCalls = p.syntacticDiags.map (getError rel cf) := by
  have hs : p.syntacticDiags.isEmpty = false := by
    cases hp : p.syntacticDiags with
    | nil => exact absurd hp h
    | cons a t => rfl
  cases so <;> simp [compile, hs, sortedEmitAll]

/-- Witness for C9: with one syntactic diagnostic, nothing is emitted
even though the (stale) emit output of the model is nonempty. -/
theorem claim9_syntax_errors_suppress_emit_witness :
    c9Prog.syntacticDiags ≠ [] ∧
    (compile relId c9Prog cfA false).jsPushed = [] ∧
    (compile relId c9Prog cfA false).declPushed = [] ∧
    (compile relId c9Prog cfA false).errCalls =
      [⟨"TypeScript error", "a.ts", 1, 5, 1005, "expected ;"⟩] := by
  have h := claim9_syntax_errors_suppress_emit relId c9Prog cfA false (by decide)
  refine ⟨by decide, h.1, h.2.1, ?_⟩
  rw [h.2.2]
  decide

/-- Claim C10: declaration artifacts are also passed through
`removeSourceMapComment` before being pushed to the declaration stream,
so the last line of an emitted declaration file is removed exactly as for
CompiledCode artifacts. -/
theorem claim10_decl_stripped (cf : List (String × FileData)) (st : ClassifyState)
    (fn data : String) (orig : FileData) (p L : List Char)
    (h1 : List.lookup (getOriginalName fn) cf = some orig)
    (h2 : endsIn fn.data dtsChars = true)
    (hL : '\n' ∉ L)
    (hdata : data = String.mk (p ++ '\n' :: (L ++ ['\n']))) :
    (classifyStep cf st (fn, data)).declPushed =
      st.declPushed ++ [⟨fn, removeSourceMapComment data, orig.cwd, orig.base, none, none⟩] ∧
    removeSourceMapComment data = String.mk (p ++ ['\n']) := by
  constructor
  · simp only [classifyStep, h1, not_js_of_dts fn.data h2, h2, Bool.false_eq_true, if_false,
      if_true]
  · rw [hdata, removeSourceMapComment]
    have hdd : (String.mk (p ++ '\n' :: (L ++ ['\n']))).data = p ++ '\n' :: (L ++ ['\n']) := rfl
    rw [hdd, removeSourceMapCommentL_eq p L hL]

/-- Witness for C10 at the declaration artifact `a.d.ts`: its last line
is stripped before the push. -/
theorem claim10_decl_stripped_witness :
    List.lookup (getOriginalName "a.d.ts") cfA = some ⟨"/cwd", "/base", none⟩ ∧
    (classifyStep cfA ⟨[], [], []⟩ ("a.d.ts", "declare var a;\n\n")).declPushed =
      [⟨"a.d.ts", removeSourceMapComment "declare var a;\n\n", "/cwd", "/base", none, none⟩] ∧
    removeSourceMapComment "declare var a;\n\n" = String.mk ("declare var a;".data ++ ['\n']) := by
  have h := claim10_decl_stripped cfA ⟨[], [], []⟩ "a.d.ts" "declare var a;\n\n"
    ⟨"/cwd", "/base", none⟩ "declare var a;".data [] (by decide) (by decide) (by decide)
    (by decide)
  exact ⟨by decide, by rw [h.1]; rfl, h.2⟩

/-- Claim C4 (divergence witness): on a clean compilation that produced
both `a.js` and its source map `a.js.map` for the input `a.ts`, the map
is collected into the `sourcemaps` mapping under the emitted map file
name, but the emission lookup uses the original name `a.ts`, so the
pushed JavaScript file has no source map applied — in both natural and
sorted emission modes. -/
theorem claim4_map_never_applied :
    (c4Prog.emitOutput.foldl (classifyStep cfA) ⟨[], [], []⟩).sourcemaps =
      [("a.js.map", "MAPDATA")] ∧
    List.lookup (getOriginalName "a.js")
      (c4Prog.emitOutput.foldl (classifyStep cfA) ⟨[], [], []⟩).sourcemaps = none ∧
    (compile relId c4Prog cfA false).jsPushed.map (fun f => f.appliedMap) = [none] ∧
    (compile relId c4Prog cfA true).jsPushed.map (fun f => f.appliedMap) = [none] := by
  refine ⟨?_, ?_, ?_, ?_⟩ <;> decide

/-! ## Sorted emission: supporting lemmas -/

theorem emitOne_shape (smaps : List (String × String)) (n : String) (file : OutFile)
    (pushed : List OutFile) :
    ∃ f2, emitOne smaps n file pushed = pushed ++ [f2] ∧ f2.path = file.path := by
  rw [emitOne]
  cases List.lookup n smaps with
  | none => exact ⟨file, rfl, rfl⟩
  | some m =>
    by_cases hm : m = ""
    · exact ⟨file, by simp [hm], rfl⟩
    · exact ⟨{ file with appliedMap := some m }, by simp [hm], rfl⟩

theorem length_filter_mono {α : Type} (l : List α) (p q : α → Bool)
    (h : ∀ a ∈ l, q a = true → p a = true) :
    (l.filter q).length ≤ (l.filter p).length := by
  induction l with
  | nil => simp
  | cons a t ih =>
    have ht : ∀ b ∈ t, q b = true → p b = true := fun b hb => h b (List.mem_cons_of_mem a hb)
    rw [List.filter_cons, List.filter_cons]
    cases hq : q a with
    | false =>
      cases hp : p a with
      | false => simpa using ih ht
      | true => simp only [if_pos rfl, List.length_cons]; exact Nat.le_succ_of_le (ih ht)
    | true =>
      rw [h a (List.mem_cons_self a t) hq]
      simpa using ih ht

theorem length_filter_notMem_cons (l : List String) (hl : l.Nodup) (x : String)
    (hx : x ∈ l) (d : List String) (hxd : x ∉ d) :
    (l.filter (fun y => decide (y ∉ x :: d))).length + 1 =
      (l.filter (fun y => decide (y ∉ d))).length := by
  induction l with
  | nil => cases hx
  | cons a t ih =>
    rw [List.nodup_cons] at hl
    rcases List.mem_cons.1 hx with rfl | hxt
    · have hpa : (decide (x ∉ x :: d)) = false := by simp
      have hqa : (decide (x ∉ d)) = true := by simpa using hxd
      have hcong : t.filter (fun y => decide (y ∉ x :: d)) = t.filter (fun y => decide (y ∉ d)) := by
        apply List.filter_congr
        intro y hy
        have hyx : y ≠ x := fun he => hl.1 (he ▸ hy)
        simp [hyx]
      rw [List.filter_cons, List.filter_cons, hpa, hqa, hcong,
        if_neg Bool.false_ne_true, if_pos rfl, List.length_cons]
    · have hax : a ≠ x := fun he => hl.1 (he ▸ hxt)
      have hsame : (decide (a ∉ x :: d)) = (decide (a ∉ d)) := by
        simp [hax]
      have hrec := ih hl.2 hxt
      cases hqa : (decide (a ∉ d)) with
      | false =>
        rw [List.filter_cons, List.filter_cons, hsame, hqa,
          if_neg Bool.false_ne_true, if_neg Bool.false_ne_true]
        exact hrec
      | true =>
        rw [List.filter_cons, List.filter_cons, hsame, hqa, if_pos rfl, if_pos rfl,
          List.length_cons, List.length_cons]
        omega

theorem remaining_cons (outputJS : List OutFile) (n : String) (done : List String)
    (hn : n ∈ namesOf outputJS) (hnd : n ∉ done) :
    remaining outputJS (n :: done) + 1 = remaining outputJS done :=
  length_filter_notMem_cons (namesOf outputJS).dedup (List.nodup_dedup _) n
    (List.mem_dedup.2 hn) done hnd

theorem remaining_mono (outputJS : List OutFile) (d d2 : List String)
    (h : ∀ y ∈ d, y ∈ d2) : remaining outputJS d2 ≤ remaining outputJS d := by
  apply length_filter_mono
  intro a _ ha
  rw [decide_eq_true_iff] at ha
  rw [decide_eq_true_iff]
  intro had
  exact ha (h a had)

theorem remaining_pos (outputJS : List OutFile) (n : String) (done : List String)
    (hn : n ∈ namesOf outputJS) (hnd : n ∉ done) :
    1 ≤ remaining outputJS done := by
  have := remaining_cons outputJS n done hn hnd
  omega

theorem SEPost_refl (outputJS : List OutFile) (st : EmitSt) : SEPost outputJS st st :=
  ⟨[], [], by simp, by simp, List.nodup_nil, by simp, List.Perm.refl _⟩

theorem SEPost_done_sub (outputJS : List OutFile) (st stF : EmitSt)
    (h : SEPost outputJS st stF) : ∀ x ∈ st.done, x ∈ stF.done := by
  rcases h with ⟨new, Δ, hdone, _, _, _, _⟩
  intro x hx
  rw [hdone]
  exact List.mem_append_right new hx

theorem SEPost_pushed_sub (outputJS : List OutFile) (st stF : EmitSt)
    (h : SEPost outputJS st stF) : ∀ x ∈ pushedNames st, x ∈ pushedNames stF := by
  rcases h with ⟨new, Δ, _, hpush, _, _, _⟩
  intro x hx
  rw [pushedNames, hpush, List.map_append]
  exact List.mem_append_left _ hx

theorem SEPost_trans (outputJS : List OutFile) (st st2 st3 : EmitSt)
    (h1 : SEPost outputJS st st2) (h2 : SEPost outputJS st2 st3) :
    SEPost outputJS st st3 := by
  rcases h1 with ⟨new1, Δ1, hd1, hp1, hn1, hf1, hperm1⟩
  rcases h2 with ⟨new2, Δ2, hd2, hp2, hn2, hf2, hperm2⟩
  refine ⟨new2 ++ new1, Δ1 ++ Δ2, ?_, ?_, ?_, ?_, ?_⟩
  · rw [hd2, hd1, List.append_assoc]
  · rw [hp2, hp1, List.append_assoc]
  · refine List.Nodup.append hn2 hn1 ?_
    intro x hx2 hx1
    have : x ∈ st2.done := by
      rw [hd1]
      exact List.mem_append_left _ hx1
    exact (hf2 x hx2).2 this
  · intro x hx
    rcases List.mem_append.1 hx with hx2 | hx1
    · refine ⟨(hf2 x hx2).1, fun hc => (hf2 x hx2).2 ?_⟩
      rw [hd1]
      exact List.mem_append_right _ hc
    · exact hf1 x hx1
  · rw [List.map_append]
    exact ((hperm1.append hperm2).trans (List.perm_append_comm))

theorem SEPost_remaining_le (outputJS : List OutFile) (st stF : EmitSt)
    (h : SEPost outputJS st stF) :
    remaining outputJS stF.done ≤ remaining outputJS st.done :=
  remaining_mono outputJS st.done stF.done (SEPost_done_sub outputJS st stF h)

/-- Along any sorted-emission step, the set of names marked done but not
yet pushed (emissions in progress) is unchanged. -/
theorem SEPost_gray_eq (outputJS : List OutFile) (st stF : EmitSt)
    (h : SEPost outputJS st stF) (x : String) :
    (x ∈ stF.done ∧ x ∉ pushedNames stF) ↔ (x ∈ st.done ∧ x ∉ pushedNames st) := by
  rcases h with ⟨new, Δ, hdone, hpush, hnd, hfresh, hperm⟩
  have hpn : pushedNames stF = pushedNames st ++ Δ.map origOf := by
    rw [pushedNames, hpush, List.map_append]
    rfl
  constructor
  · rintro ⟨hxd, hxp⟩
    rw [hdone] at hxd
    rcases List.mem_append.1 hxd with hxnew | hxold
    · exfalso
      apply hxp
      rw [hpn]
      exact List.mem_append_right _ (hperm.mem_iff.2 hxnew)
    · refine ⟨hxold, fun hc => hxp ?_⟩
      rw [hpn]
      exact List.mem_append_left _ hc
  · rintro ⟨hxd, hxp⟩
    refine ⟨by rw [hdone]; exact List.mem_append_right _ hxd, fun hc => ?_⟩
    rw [hpn] at hc
    rcases List.mem_append.1 hc with hc | hc
    · exact hxp hc
    · exact (hfresh x (hperm.mem_iff.1 hc)).2 hxd

theorem sortedEmit_of_done (refs : String → List String) (smaps : List (String × String))
    (outputJS : List OutFile) (fuel : Nat) (n : String) (file : OutFile) (st : EmitSt)
    (hd : n ∈ st.done) :
    sortedEmit refs smaps outputJS fuel n file st = st := by
  cases fuel with
  | zero => rfl
  | succ f => rw [sortedEmit, if_pos hd]

theorem sortedEmit_of_notDone (refs : String → List String) (smaps : List (String × String))
    (outputJS : List OutFile) (f : Nat) (n : String) (file : OutFile) (st : EmitSt)
    (hd : n ∉ st.done) :
    sortedEmit refs smaps outputJS (f + 1) n file st =
      ⟨(sortedEmitLoop (sortedEmit refs smaps outputJS f) (refs n) outputJS
          ⟨n :: st.done, st.pushed⟩).done,
       emitOne smaps n file
         (sortedEmitLoop (sortedEmit refs smaps outputJS f) (refs n) outputJS
           ⟨n :: st.done, st.pushed⟩).pushed⟩ := by
  rw [sortedEmit, if_neg hd]

theorem origOf_eq (f : OutFile) : origOf f = getOriginalName f.path := rfl

theorem pushedNames_mk (done : List String) (pushed : List OutFile) :
    pushedNames ⟨done, pushed⟩ = pushed.map origOf := rfl

/-- The loop over `outputJS` inside `sortedEmit`, assuming the inductive
hypothesis for recursive calls at a strictly smaller measure: both fuels
compute the same result, the step is an `SEPost` step, every artifact of
the walked list whose name occurs in the reference list ends up done, and
the invariant is preserved. -/
theorem sortedEmitLoop_main (refs : String → List String) (smaps : List (String × String))
    (outputJS : List OutFile) (f g m1 : Nat)
    (IH : ∀ (st : EmitSt) (n : String) (file : OutFile),
      remaining outputJS st.done ≤ m1 →
      remaining outputJS st.done ≤ f →
      remaining outputJS st.done ≤ g →
      n ∈ namesOf outputJS → origOf file = n → Inv outputJS st →
      sortedEmit refs smaps outputJS f n file st = sortedEmit refs smaps outputJS g n file st ∧
      SEPost outputJS st (sortedEmit refs smaps outputJS f n file st) ∧
      n ∈ (sortedEmit refs smaps outputJS f n file st).done ∧
      Inv outputJS (sortedEmit refs smaps outputJS f n file st)) :
    ∀ (l : List OutFile) (rs : List String) (st : EmitSt),
      (∀ x ∈ l, x ∈ outputJS) →
      remaining outputJS st.done ≤ m1 →
      remaining outputJS st.done ≤ f →
      remaining outputJS st.done ≤ g →
      Inv outputJS st →
      sortedEmitLoop (sortedEmit refs smaps outputJS f) rs l st =
        sortedEmitLoop (sortedEmit refs smaps outputJS g) rs l st ∧
      SEPost outputJS st (sortedEmitLoop (sortedEmit refs smaps outputJS f) rs l st) ∧
      (∀ other ∈ l, origOf other ∈ rs →
        origOf other ∈ (sortedEmitLoop (sortedEmit refs smaps outputJS f) rs l st).done) ∧
      Inv outputJS (sortedEmitLoop (sortedEmit refs smaps outputJS f) rs l st) := by
  intro l
  induction l with
  | nil =>
    intro rs st _ _ _ _ hInv
    refine ⟨rfl, SEPost_refl _ _, ?_, hInv⟩
    intro other ho
    cases ho
  | cons other rest ih =>
    intro rs st hmem hm1 hf hg hInv
    rw [sortedEmitLoop, sortedEmitLoop]
    by_cases hin : getOriginalName other.path ∈ rs
    · rw [if_pos hin, if_pos hin]
      have hother : other ∈ outputJS := hmem other (List.mem_cons_self _ _)
      have hnames : origOf other ∈ namesOf outputJS := List.mem_map_of_mem origOf hother
      have hstep := IH st (getOriginalName other.path) other hm1 hf hg hnames rfl hInv
      rcases hstep with ⟨hstepEq, hstepPost, hstepDone, hstepInv⟩
      have hrem2 : remaining outputJS
          (sortedEmit refs smaps outputJS f (getOriginalName other.path) other st).done ≤
          remaining outputJS st.done :=
        SEPost_remaining_le outputJS _ _ hstepPost
      have hrest := ih rs (sortedEmit refs smaps outputJS f (getOriginalName other.path) other st)
        (fun x hx => hmem x (List.mem_cons_of_mem _ hx))
        (le_trans hrem2 hm1) (le_trans hrem2 hf) (le_trans hrem2 hg) hstepInv
      rcases hrest with ⟨hrestEq, hrestPost, hrestMem, hrestInv⟩
      refine ⟨?_, SEPost_trans outputJS _ _ _ hstepPost hrestPost, ?_, hrestInv⟩
      · rw [← hstepEq]
        exact hrestEq
      · intro o ho hors
        rcases List.mem_cons.1 ho with rfl | hot
        · exact SEPost_done_sub outputJS _ _ hrestPost _ hstepDone
        · exact hrestMem o hot hors
    · rw [if_neg hin, if_neg hin]
      have hrest := ih rs st (fun x hx => hmem x (List.mem_cons_of_mem _ hx)) hm1 hf hg hInv
      rcases hrest with ⟨hrestEq, hrestPost, hrestMem, hrestInv⟩
      refine ⟨hrestEq, hrestPost, ?_, hrestInv⟩
      intro o ho hors
      rcases List.mem_cons.1 ho with rfl | hot
      · exact absurd hors hin
      · exact hrestMem o hot hors

/-- Main lemma about `sortedEmit`: with any two sufficient fuels (at least
the number of distinct not-yet-done artifact names) the call computes the
same result — so the unbounded source recursion terminates — and the call
is an `SEPost` step that marks its name done and preserves the
invariant. -/
theorem sortedEmit_main (refs : String → List String) (smaps : List (String × String))
    (outputJS : List OutFile) :
    ∀ (m : Nat) (st : EmitSt) (n : String) (file : OutFile) (f g : Nat),
      remaining outputJS st.done ≤ m →
      remaining outputJS st.done ≤ f →
      remaining outputJS st.done ≤ g →
      n ∈ namesOf outputJS → origOf file = n → Inv outputJS st →
      sortedEmit refs smaps outputJS f n file st = sortedEmit refs smaps outputJS g n file st ∧
      SEPost outputJS st (sortedEmit refs smaps outputJS f n file st) ∧
      n ∈ (sortedEmit refs smaps outputJS f n file st).done ∧
      Inv outputJS (sortedEmit refs smaps outputJS f n file st) := by
  intro m
  induction m using Nat.strong_induction_on with
  | _ m IHm =>
  intro st n file f g hm hf hg hn horig hInv
  by_cases hd : n ∈ st.done
  · rw [sortedEmit_of_done refs smaps outputJS f n file st hd,
      sortedEmit_of_done refs smaps outputJS g n file st hd]
    exact ⟨rfl, SEPost_refl _ _, hd, hInv⟩
  · have hpos : 1 ≤ remaining outputJS st.done := remaining_pos outputJS n st.done hn hd
    obtain ⟨f2, rfl⟩ : ∃ f2, f = f2 + 1 := ⟨f - 1, by omega⟩
    obtain ⟨g2, rfl⟩ : ∃ g2, g = g2 + 1 := ⟨g - 1, by omega⟩
    obtain ⟨m2, rfl⟩ : ∃ m2, m = m2 + 1 := ⟨m - 1, by omega⟩
    have hrem1 : remaining outputJS (n :: st.done) + 1 = remaining outputJS st.done :=
      remaining_cons outputJS n st.done hn hd
    have hInv1 : Inv outputJS (⟨n :: st.done, st.pushed⟩ : EmitSt) := by
      obtain ⟨hN, hPD, hPN, hDN⟩ := hInv
      refine ⟨List.nodup_cons.2 ⟨hd, hN⟩, ?_, hPN, ?_⟩
      · intro x hx
        exact List.mem_cons_of_mem n (hPD x hx)
      · intro x hx
        rcases List.mem_cons.1 hx with rfl | hx2
        · exact hn
        · exact hDN x hx2
    have IH1 : ∀ (st2 : EmitSt) (n2 : String) (file2 : OutFile),
        remaining outputJS st2.done ≤ m2 →
        remaining outputJS st2.done ≤ f2 →
        remaining outputJS st2.done ≤ g2 →
        n2 ∈ namesOf outputJS → origOf file2 = n2 → Inv outputJS st2 →
        sortedEmit refs smaps outputJS f2 n2 file2 st2 =
          sortedEmit refs smaps outputJS g2 n2 file2 st2 ∧
        SEPost outputJS st2 (sortedEmit refs smaps outputJS f2 n2 file2 st2) ∧
        n2 ∈ (sortedEmit refs smaps outputJS f2 n2 file2 st2).done ∧
        Inv outputJS (sortedEmit refs smaps outputJS f2 n2 file2 st2) :=
      fun st2 n2 file2 h1 h2 h3 h4 h5 h6 =>
        IHm m2 (by omega) st2 n2 file2 f2 g2 h1 h2 h3 h4 h5 h6
    have hloop := sortedEmitLoop_main refs smaps outputJS f2 g2 m2 IH1 outputJS (refs n)
      ⟨n :: st.done, st.pushed⟩ (fun x hx => hx) (by simp only []; omega)
      (by simp only []; omega) (by simp only []; omega) hInv1
    rcases hloop with ⟨hloopEq, hloopPost, _, hloopInv⟩
    rw [sortedEmit_of_notDone refs smaps outputJS f2 n file st hd,
      sortedEmit_of_notDone refs smaps outputJS g2 n file st hd]
    rcases hloopPost with ⟨newL, ΔL, hLd, hLp, hLnodup, hLfresh, hLperm⟩
    obtain ⟨fileF, hemit, hpath⟩ :=
      emitOne_shape smaps n file
        (sortedEmitLoop (sortedEmit refs smaps outputJS f2) (refs n) outputJS
          ⟨n :: st.done, st.pushed⟩).pushed
    have horigF : origOf fileF = n := by
      rw [origOf_eq, hpath, ← origOf_eq, horig]
    have hnin1 : n ∈ (⟨n :: st.done, st.pushed⟩ : EmitSt).done := List.mem_cons_self _ _
    have hdoneF : n ∈ (sortedEmitLoop (sortedEmit refs smaps outputJS f2) (refs n) outputJS
        ⟨n :: st.done, st.pushed⟩).done := by
      rw [hLd]
      exact List.mem_append_right _ hnin1
    have hnNotPushedL : n ∉ pushedNames (sortedEmitLoop (sortedEmit refs smaps outputJS f2)
        (refs n) outputJS ⟨n :: st.done, st.pushed⟩) := by
      rw [pushedNames, hLp]
      intro hc
      rw [List.map_append] at hc
      rcases List.mem_append.1 hc with hc | hc
      · exact hd (hInv.2.1 n hc)
      · exact (hLfresh n (hLperm.mem_iff.1 hc)).2 hnin1
    constructor
    · rw [hloopEq]
    constructor
    · refine ⟨newL ++ [n], ΔL ++ [fileF], ?_, ?_, ?_, ?_, ?_⟩
      · rw [hLd]
        simp
      · rw [hemit, hLp]
        simp
      · refine List.Nodup.append hLnodup (List.nodup_singleton n) ?_
        intro x hx hxs
        rcases List.mem_singleton.1 hxs with rfl
        exact (hLfresh x hx).2 hnin1
      · intro x hx
        rcases List.mem_append.1 hx with hx | hx
        · refine ⟨(hLfresh x hx).1, fun hc => (hLfresh x hx).2 ?_⟩
          exact List.mem_cons_of_mem n hc
        · rcases List.mem_singleton.1 hx with rfl
          exact ⟨hn, hd⟩
      · rw [List.map_append]
        have h1 : [fileF].map origOf = [n] := by
          rw [List.map_singleton, horigF]
        rw [h1]
        exact hLperm.append (List.Perm.refl [n])
    constructor
    · exact hdoneF
    · obtain ⟨hN2, hPD2, hPN2, hDN2⟩ := hloopInv
      refine ⟨hN2, ?_, ?_, hDN2⟩
      · intro x hx
        rw [pushedNames_mk, hemit, List.map_append] at hx
        rcases List.mem_append.1 hx with hx | hx
        · exact hPD2 x hx
        · rw [List.map_singleton, List.mem_singleton] at hx
          rw [hx, horigF]
          exact hdoneF
      · rw [pushedNames_mk, hemit, List.map_append, List.map_singleton, horigF]
        refine List.Nodup.append hPN2 (List.nodup_singleton n) ?_
        intro x hx hxs
        rcases List.mem_singleton.1 hxs with rfl
        exact hnNotPushedL hx

/-- `sortedEmit` at a single sufficient fuel: `SEPost` step, name done,
invariant preserved. -/
theorem sortedEmit_post (refs : String → List String) (smaps : List (String × String))
    (outputJS : List OutFile) (f : Nat) (st : EmitSt) (n : String) (file : OutFile)
    (hf : remaining outputJS st.done ≤ f) (hn : n ∈ namesOf outputJS)
    (horig : origOf file = n) (hInv : Inv outputJS st) :
    SEPost outputJS st (sortedEmit refs smaps outputJS f n file st) ∧
    n ∈ (sortedEmit refs smaps outputJS f n file st).done ∧
    Inv outputJS (sortedEmit refs smaps outputJS f n file st) := by
  have h := sortedEmit_main refs smaps outputJS f st n file f f hf hf hf hn horig hInv
  exact ⟨h.2.1, h.2.2.1, h.2.2.2⟩

/-- The reference loop at a single sufficient fuel: `SEPost` step, every
matching artifact name done, invariant preserved. -/
theorem sortedEmitLoop_post (refs : String → List String) (smaps : List (String × String))
    (outputJS : List OutFile) (f : Nat) (l : List OutFile) (rs : List String) (st : EmitSt)
    (hmem : ∀ x ∈ l, x ∈ outputJS) (hf : remaining outputJS st.done ≤ f)
    (hInv : Inv outputJS st) :
    SEPost outputJS st (sortedEmitLoop (sortedEmit refs smaps outputJS f) rs l st) ∧
    (∀ other ∈ l, origOf other ∈ rs →
      origOf other ∈ (sortedEmitLoop (sortedEmit refs smaps outputJS f) rs l st).done) ∧
    Inv outputJS (sortedEmitLoop (sortedEmit refs smaps outputJS f) rs l st) := by
  have h := sortedEmitLoop_main refs smaps outputJS f f f
    (fun st2 n2 file2 h1 h2 h3 h4 h5 h6 =>
      sortedEmit_main refs smaps outputJS f st2 n2 file2 f f h1 h2 h3 h4 h5 h6)
    l rs st hmem hf hf hf hInv
  exact ⟨h.2.1, h.2.2.1, h.2.2.2⟩

/-- The fold driving sorted emission over a list of artifacts: both
sufficient fuels agree, the whole fold is an `SEPost` step, every walked
artifact name is done afterwards, and the invariant is preserved. -/
theorem sortedEmitAll_fold (refs : String → List String) (smaps : List (String × String))
    (outputJS : List OutFile) :
    ∀ (l : List OutFile) (st : EmitSt) (f g : Nat),
      (∀ x ∈ l, x ∈ outputJS) →
      remaining outputJS st.done ≤ f →
      remaining outputJS st.done ≤ g →
      Inv outputJS st →
      (l.foldl (fun st2 file =>
          sortedEmit refs smaps outputJS f (getOriginalName file.path) file st2) st =
        l.foldl (fun st2 file =>
          sortedEmit refs smaps outputJS g (getOriginalName file.path) file st2) st) ∧
      SEPost outputJS st (l.foldl (fun st2 file =>
        sortedEmit refs smaps outputJS f (getOriginalName file.path) file st2) st) ∧
      (∀ x ∈ l, origOf x ∈ (l.foldl (fun st2 file =>
        sortedEmit refs smaps outputJS f (getOriginalName file.path) file st2) st).done) ∧
      Inv outputJS (l.foldl (fun st2 file =>
        sortedEmit refs smaps outputJS f (getOriginalName file.path) file st2) st) := by
  intro l
  induction l with
  | nil =>
    intro st f g _ _ _ hInv
    refine ⟨rfl, SEPost_refl _ _, ?_, hInv⟩
    intro x hx
    cases hx
  | cons file rest ih =>
    intro st f g hmem hf hg hInv
    rw [List.foldl_cons, List.foldl_cons]
    have hfile : file ∈ outputJS := hmem file (List.mem_cons_self _ _)
    have hnames : origOf file ∈ namesOf outputJS := List.mem_map_of_mem origOf hfile
    have hstep := sortedEmit_main refs smaps outputJS f st (getOriginalName file.path) file f g
      hf hf hg hnames rfl hInv
    rcases hstep with ⟨hstepEq, hstepPost, hstepDone, hstepInv⟩
    have hrem2 : remaining outputJS
        (sortedEmit refs smaps outputJS f (getOriginalName file.path) file st).done ≤
        remaining outputJS st.done :=
      SEPost_remaining_le outputJS _ _ hstepPost
    have hrest := ih (sortedEmit refs smaps outputJS f (getOriginalName file.path) file st)
      f g (fun x hx => hmem x (List.mem_cons_of_mem _ hx))
      (le_trans hrem2 hf) (le_trans hrem2 hg) hstepInv
    rcases hrest with ⟨hrestEq, hrestPost, hrestMem, hrestInv⟩
    refine ⟨?_, SEPost_trans outputJS _ _ _ hstepPost hrestPost, ?_, hrestInv⟩
    · rw [← hstepEq]
      exact hrestEq
    · intro x hx
      rcases List.mem_cons.1 hx with rfl | hxt
      · exact SEPost_done_sub outputJS _ _ hrestPost _ hstepDone
      · exact hrestMem x hxt

theorem remaining_le_length (outputJS : List OutFile) (d : List String) :
    remaining outputJS d ≤ outputJS.length := by
  have h1 : ((namesOf outputJS).dedup.filter (fun x => decide (x ∉ d))).length ≤
      (namesOf outputJS).dedup.length := List.length_filter_le _ _
  have h2 : (namesOf outputJS).dedup.length ≤ (namesOf outputJS).length :=
    (List.dedup_sublist _).length_le
  have h3 : (namesOf outputJS).length = outputJS.length := List.length_map _ _
  rw [remaining]
  omega

theorem inv_init (outputJS : List OutFile) : Inv outputJS ⟨[], []⟩ := by
  refine ⟨List.nodup_nil, ?_, List.nodup_nil, ?_⟩
  · intro x hx
    cases hx
  · intro x hx
    cases hx

theorem indexOf_append_self (l : List String) (n : String) (h : n ∉ l) :
    List.indexOf n (l ++ [n]) = l.length := by
  induction l with
  | nil => simp
  | cons a t ih =>
    have hne : a ≠ n := fun he => h (he ▸ List.mem_cons_self a t)
    rw [List.cons_append, List.indexOf_cons_ne _ hne,
      ih (fun hm => h (List.mem_cons_of_mem a hm)), List.length_cons]

theorem depsBefore_nil (R : String → String → Prop) : depsBefore R [] :=
  fun a _ _ ha => absurd ha (List.not_mem_nil a)

/-- Appending a file all of whose dependencies already occur preserves the
dependency ordering. -/
theorem depsBefore_append (R : String → String → Prop) (l : List String) (n : String)
    (hnl : n ∉ l) (hdeps : ∀ b, R n b → b ∈ l) (h : depsBefore R l) :
    depsBefore R (l ++ [n]) := by
  intro a b hr ha
  rcases List.mem_append.1 ha with hal | han
  · obtain ⟨hbl, hidx⟩ := h a b hr hal
    refine ⟨List.mem_append_left _ hbl, ?_⟩
    rw [List.indexOf_append_of_mem hbl, List.indexOf_append_of_mem hal]
    exact hidx
  · rcases List.mem_singleton.1 han with rfl
    have hbl : b ∈ l := hdeps b hr
    refine ⟨List.mem_append_left _ hbl, ?_⟩
    rw [List.indexOf_append_of_mem hbl, indexOf_append_self l a hnl]
    exact List.indexOf_lt_length.2 hbl

/-- A relation admitting a strictly decreasing rank is acyclic. -/
theorem acyclic_of_rank (R : String → String → Prop) (rank : String → Nat)
    (h : ∀ a b, R a b → rank b < rank a) : Acyclic R := by
  intro x hx
  have hlt : ∀ y z : String, Relation.TransGen R y z → rank z < rank y := by
    intro y z hyz
    induction hyz with
    | single h1 => exact h _ _ h1
    | tail _ h2 ih => exact lt_trans (h _ _ h2) ih
  exact absurd (hlt x x hx) (lt_irrefl _)

/-- Ordering lemma for one `sortedEmit` call: under an acyclic reference
relation, if every in-progress name reaches the current name and the
pushed list is dependency-ordered, it stays dependency-ordered. -/
theorem sortedEmit_order (refs : String → List String) (smaps : List (String × String))
    (outputJS : List OutFile) (hacyc : Acyclic (refRel refs outputJS)) :
    ∀ (m : Nat) (st : EmitSt) (n : String) (file : OutFile) (f : Nat),
      remaining outputJS st.done ≤ m →
      remaining outputJS st.done ≤ f →
      n ∈ namesOf outputJS → origOf file = n → Inv outputJS st →
      (∀ x ∈ st.done, x ∉ pushedNames st →
        (x = n ∨ Relation.TransGen (refRel refs outputJS) x n)) →
      depsBefore (refRel refs outputJS) (pushedNames st) →
      depsBefore (refRel refs outputJS)
        (pushedNames (sortedEmit refs smaps outputJS f n file st)) := by
  intro m
  induction m using Nat.strong_induction_on with
  | _ m IHm =>
  intro st n file f hm hf hn horig hInv hgray hdeps
  by_cases hd : n ∈ st.done
  · rw [sortedEmit_of_done refs smaps outputJS f n file st hd]
    exact hdeps
  · have hpos : 1 ≤ remaining outputJS st.done := remaining_pos outputJS n st.done hn hd
    obtain ⟨f2, rfl⟩ : ∃ f2, f = f2 + 1 := ⟨f - 1, by omega⟩
    obtain ⟨m2, rfl⟩ : ∃ m2, m = m2 + 1 := ⟨m - 1, by omega⟩
    have hrem1 : remaining outputJS (n :: st.done) + 1 = remaining outputJS st.done :=
      remaining_cons outputJS n st.done hn hd
    have hInv1 : Inv outputJS (⟨n :: st.done, st.pushed⟩ : EmitSt) := by
      obtain ⟨hN, hPD, hPN, hDN⟩ := hInv
      refine ⟨List.nodup_cons.2 ⟨hd, hN⟩, ?_, hPN, ?_⟩
      · intro x hx
        exact List.mem_cons_of_mem n (hPD x hx)
      · intro x hx
        rcases List.mem_cons.1 hx with rfl | hx2
        · exact hn
        · exact hDN x hx2
    have hloopClaim : ∀ (l : List OutFile) (stc : EmitSt),
        (∀ x ∈ l, x ∈ outputJS) →
        remaining outputJS stc.done ≤ m2 →
        remaining outputJS stc.done ≤ f2 →
        Inv outputJS stc →
        (∀ x ∈ stc.done, x ∉ pushedNames stc →
          (x = n ∨ Relation.TransGen (refRel refs outputJS) x n)) →
        depsBefore (refRel refs outputJS) (pushedNames stc) →
        depsBefore (refRel refs outputJS)
          (pushedNames (sortedEmitLoop (sortedEmit refs smaps outputJS f2) (refs n) l stc)) ∧
        (∀ x ∈ (sortedEmitLoop (sortedEmit refs smaps outputJS f2) (refs n) l stc).done,
          x ∉ pushedNames (sortedEmitLoop (sortedEmit refs smaps outputJS f2) (refs n) l stc) →
          (x = n ∨ Relation.TransGen (refRel refs outputJS) x n)) := by
      intro l
      induction l with
      | nil =>
        intro stc _ _ _ _ hgrayc hdepsc
        exact ⟨hdepsc, hgrayc⟩
      | cons other rest ihl =>
        intro stc hmem hm2 hf2 hInvc hgrayc hdepsc
        rw [sortedEmitLoop]
        by_cases hin : getOriginalName other.path ∈ refs n
        · rw [if_pos hin]
          have hother : other ∈ outputJS := hmem other (List.mem_cons_self _ _)
          have hnames2 : origOf other ∈ namesOf outputJS := List.mem_map_of_mem origOf hother
          have hRnm : refRel refs outputJS n (origOf other) := ⟨hin, hn, hnames2⟩
          have hgray2 : ∀ x ∈ stc.done, x ∉ pushedNames stc →
              (x = origOf other ∨
                Relation.TransGen (refRel refs outputJS) x (origOf other)) := by
            intro x hx hxp
            rcases hgrayc x hx hxp with rfl | htg
            · exact Or.inr (Relation.TransGen.single hRnm)
            · exact Or.inr (htg.tail hRnm)
          have hord := IHm m2 (by omega) stc (origOf other) other f2 hm2 hf2 hnames2 rfl
            hInvc hgray2 hdepsc
          have hpost := sortedEmit_post refs smaps outputJS f2 stc (origOf other) other
            hf2 hnames2 rfl hInvc
          rcases hpost with ⟨hPost, _, hInv2⟩
          have hgrayN : ∀ x ∈ (sortedEmit refs smaps outputJS f2
                (getOriginalName other.path) other stc).done,
              x ∉ pushedNames (sortedEmit refs smaps outputJS f2
                (getOriginalName other.path) other stc) →
              (x = n ∨ Relation.TransGen (refRel refs outputJS) x n) := by
            intro x hx hxp
            have hg := (SEPost_gray_eq outputJS stc _ hPost x).1 ⟨hx, hxp⟩
            exact hgrayc x hg.1 hg.2
          have hrem2 : remaining outputJS (sortedEmit refs smaps outputJS f2
              (getOriginalName other.path) other stc).done ≤
              remaining outputJS stc.done :=
            SEPost_remaining_le outputJS _ _ hPost
          exact ihl (sortedEmit refs smaps outputJS f2 (getOriginalName other.path) other stc)
            (fun x hx => hmem x (List.mem_cons_of_mem _ hx))
            (le_trans hrem2 hm2) (le_trans hrem2 hf2) hInv2 hgrayN hord
        · rw [if_neg hin]
          exact ihl stc (fun x hx => hmem x (List.mem_cons_of_mem _ hx)) hm2 hf2 hInvc
            hgrayc hdepsc
    have hgray1 : ∀ x ∈ (⟨n :: st.done, st.pushed⟩ : EmitSt).done,
        x ∉ pushedNames (⟨n :: st.done, st.pushed⟩ : EmitSt) →
        (x = n ∨ Relation.TransGen (refRel refs outputJS) x n) := by
      intro x hx hxp
      rcases List.mem_cons.1 hx with rfl | hx2
      · exact Or.inl rfl
      · exact hgray x hx2 hxp
    have hloopC := hloopClaim outputJS ⟨n :: st.done, st.pushed⟩ (fun x hx => hx)
      (by simp only []; omega) (by simp only []; omega) hInv1 hgray1 hdeps
    rcases hloopC with ⟨hdeps2, hgray2⟩
    have hloopPost := sortedEmitLoop_post refs smaps outputJS f2 outputJS (refs n)
      ⟨n :: st.done, st.pushed⟩ (fun x hx => hx) (by simp only []; omega) hInv1
    rcases hloopPost with ⟨hPostL, hMemL, hInvL⟩
    rw [sortedEmit_of_notDone refs smaps outputJS f2 n file st hd]
    obtain ⟨fileF, hemit, hpath⟩ :=
      emitOne_shape smaps n file
        (sortedEmitLoop (sortedEmit refs smaps outputJS f2) (refs n) outputJS
          ⟨n :: st.done, st.pushed⟩).pushed
    have horigF : origOf fileF = n := by
      rw [origOf_eq, hpath, ← origOf_eq, horig]
    have hnin1 : n ∈ (⟨n :: st.done, st.pushed⟩ : EmitSt).done := List.mem_cons_self _ _
    rcases hPostL with ⟨newL, ΔL, hLd, hLp, hLnodup, hLfresh, hLperm⟩
    have hnNotPushedL : n ∉ pushedNames (sortedEmitLoop (sortedEmit refs smaps outputJS f2)
        (refs n) outputJS ⟨n :: st.done, st.pushed⟩) := by
      rw [pushedNames, hLp]
      intro hc
      rw [List.map_append] at hc
      rcases List.mem_append.1 hc with hc | hc
      · exact hd (hInv.2.1 n hc)
      · exact (hLfresh n (hLperm.mem_iff.1 hc)).2 hnin1
    have hdepsN : ∀ b, refRel refs outputJS n b →
        b ∈ pushedNames (sortedEmitLoop (sortedEmit refs smaps outputJS f2)
          (refs n) outputJS ⟨n :: st.done, st.pushed⟩) := by
      intro b hRb
      obtain ⟨otherB, hotherB, horigB⟩ := List.mem_map.1 hRb.2.2
      have hbdone : b ∈ (sortedEmitLoop (sortedEmit refs smaps outputJS f2)
          (refs n) outputJS ⟨n :: st.done, st.pushed⟩).done := by
        rw [← horigB]
        exact hMemL otherB hotherB (by rw [horigB]; exact hRb.1)
      by_contra hbp
      rcases hgray2 b hbdone hbp with rfl | htg
      · exact hacyc b (Relation.TransGen.single hRb)
      · exact hacyc n (Relation.TransGen.head hRb htg)
    have hpnF : pushedNames (⟨(sortedEmitLoop (sortedEmit refs smaps outputJS f2)
          (refs n) outputJS ⟨n :: st.done, st.pushed⟩).done,
        emitOne smaps n file (sortedEmitLoop (sortedEmit refs smaps outputJS f2)
          (refs n) outputJS ⟨n :: st.done, st.pushed⟩).pushed⟩ : EmitSt) =
        pushedNames (sortedEmitLoop (sortedEmit refs smaps outputJS f2)
          (refs n) outputJS ⟨n :: st.done, st.pushed⟩) ++ [n] := by
      rw [pushedNames_mk, hemit, List.map_append, List.map_singleton, horigF]
      rfl
    rw [hpnF]
    exact depsBefore_append (refRel refs outputJS) _ n hnNotPushedL hdepsN hdeps2

/-- Ordering lemma for the sorted-emission driver: starting from a state
with no emission in progress and a dependency-ordered push list, the fold
keeps the push list dependency-ordered and finishes with every done name
pushed. -/
theorem sortedEmitAll_fold_order (refs : String → List String) (smaps : List (String × String))
    (outputJS : List OutFile) (hacyc : Acyclic (refRel refs outputJS)) (f : Nat) :
    ∀ (l : List OutFile) (st : EmitSt),
      (∀ x ∈ l, x ∈ outputJS) →
      remaining outputJS st.done ≤ f →
      Inv outputJS st →
      (∀ x ∈ st.done, x ∈ pushedNames st) →
      depsBefore (refRel refs outputJS) (pushedNames st) →
      depsBefore (refRel refs outputJS) (pushedNames (l.foldl (fun st2 file =>
        sortedEmit refs smaps outputJS f (getOriginalName file.path) file st2) st)) ∧
      (∀ x ∈ (l.foldl (fun st2 file =>
          sortedEmit refs smaps outputJS f (getOriginalName file.path) file st2) st).done,
        x ∈ pushedNames (l.foldl (fun st2 file =>
          sortedEmit refs smaps outputJS f (getOriginalName file.path) file st2) st)) := by
  intro l
  induction l with
  | nil =>
    intro st _ _ _ hge hdeps
    exact ⟨hdeps, hge⟩
  | cons file rest ih =>
    intro st hmem hf hInv hge hdeps
    rw [List.foldl_cons]
    have hfile : file ∈ outputJS := hmem file (List.mem_cons_self _ _)
    have hnames : origOf file ∈ namesOf outputJS := List.mem_map_of_mem origOf hfile
    have hord := sortedEmit_order refs smaps outputJS hacyc f st (getOriginalName file.path)
      file f hf hf hnames rfl hInv (fun x hx hxp => absurd (hge x hx) hxp) hdeps
    have hpost := sortedEmit_post refs smaps outputJS f st (getOriginalName file.path) file
      hf hnames rfl hInv
    rcases hpost with ⟨hPost, _, hInv2⟩
    have hge2 : ∀ x ∈ (sortedEmit refs smaps outputJS f (getOriginalName file.path)
        file st).done,
        x ∈ pushedNames (sortedEmit refs smaps outputJS f (getOriginalName file.path)
          file st) := by
      intro x hx
      by_contra hxp
      have hg := (SEPost_gray_eq outputJS st _ hPost x).1 ⟨hx, hxp⟩
      exact absurd (hge x hg.1) hg.2
    have hrem2 : remaining outputJS (sortedEmit refs smaps outputJS f
        (getOriginalName file.path) file st).done ≤ remaining outputJS st.done :=
      SEPost_remaining_le outputJS _ _ hPost
    exact ih (sortedEmit refs smaps outputJS f (getOriginalName file.path) file st)
      (fun x hx => hmem x (List.mem_cons_of_mem _ hx)) (le_trans hrem2 hf) hInv2 hge2 hord

/-! ## Claims C2 and C3 (sorted emission) -/

/-- Claim C3: for every reference relation, including cyclic ones, sorted
emission terminates — its result is independent of the recursion budget
once the budget reaches the number of artifacts, which the `done` gate
guarantees — and, when the artifact names are distinct (they are, being
derived from the distinct keys of the host output object), every
CompiledCode artifact is emitted exactly once: the pushed names are a
permutation of the artifact names. -/
theorem claim3_cycle_terminates_once (refs : String → List String)
    (smaps : List (String × String)) (outputJS : List OutFile)
    (hnodup : (namesOf outputJS).Nodup) :
    (∀ k, sortedEmitAll refs smaps outputJS (outputJS.length + 1 + k) =
      sortedEmitAll refs smaps outputJS (outputJS.length + 1)) ∧
    (pushedNames (sortedEmitAll refs smaps outputJS (outputJS.length + 1))).Perm
      (namesOf outputJS) := by
  have hb : remaining outputJS (⟨[], []⟩ : EmitSt).done ≤ outputJS.length + 1 :=
    le_trans (remaining_le_length outputJS _) (by omega)
  constructor
  · intro k
    have hb2 : remaining outputJS (⟨[], []⟩ : EmitSt).done ≤ outputJS.length + 1 + k :=
      le_trans hb (by omega)
    have hfold := sortedEmitAll_fold refs smaps outputJS outputJS ⟨[], []⟩
      (outputJS.length + 1 + k) (outputJS.length + 1) (fun x hx => hx) hb2 hb
      (inv_init outputJS)
    rw [sortedEmitAll, sortedEmitAll]
    exact hfold.1
  · have hfold := sortedEmitAll_fold refs smaps outputJS outputJS ⟨[], []⟩
      (outputJS.length + 1) (outputJS.length + 1) (fun x hx => hx) hb hb
      (inv_init outputJS)
    rcases hfold with ⟨_, hPost, hMem, _⟩
    rcases hPost with ⟨new, Δ, hdone, hpush, hnodupNew, hfresh, hperm⟩
    have hpn : pushedNames (sortedEmitAll refs smaps outputJS (outputJS.length + 1)) =
        Δ.map origOf := by
      rw [sortedEmitAll, pushedNames, hpush]
      rfl
    have hnewNames : new.Perm (namesOf outputJS) := by
      apply List.perm_of_nodup_nodup_toFinset_eq hnodupNew hnodup
      ext x
      rw [List.mem_toFinset, List.mem_toFinset]
      constructor
      · intro hx
        exact (hfresh x hx).1
      · intro hx
        obtain ⟨file, hfile, horigx⟩ := List.mem_map.1 hx
        have hxdone := hMem file hfile
        rw [hdone] at hxdone
        rw [← horigx]
        simpa using hxdone
    rw [hpn]
    exact hperm.trans hnewNames

/-- Claim C2: under an acyclic reference relation among the input files,
sorted emission pushes every file after all files it references that have
a compiled artifact, regardless of the enumeration order of the artifact
list: whenever `a` references `b` and both have artifacts, `b` is pushed
strictly before `a`. -/
theorem claim2_dependencies_first (refs : String → List String)
    (smaps : List (String × String)) (outputJS : List OutFile)
    (hacyc : Acyclic (refRel refs outputJS)) (a b : String)
    (hb : b ∈ refs a) (ha2 : a ∈ namesOf outputJS) (hb2 : b ∈ namesOf outputJS) :
    b ∈ pushedNames (sortedEmitAll refs smaps outputJS (outputJS.length + 1)) ∧
    a ∈ pushedNames (sortedEmitAll refs smaps outputJS (outputJS.length + 1)) ∧
    List.indexOf b (pushedNames (sortedEmitAll refs smaps outputJS (outputJS.length + 1))) <
      List.indexOf a (pushedNames (sortedEmitAll refs smaps outputJS (outputJS.length + 1))) := by
  have hbnd : remaining outputJS (⟨[], []⟩ : EmitSt).done ≤ outputJS.length + 1 :=
    le_trans (remaining_le_length outputJS _) (by omega)
  have hordF := sortedEmitAll_fold_order refs smaps outputJS hacyc (outputJS.length + 1)
    outputJS ⟨[], []⟩ (fun x hx => hx) hbnd (inv_init outputJS)
    (fun x hx => absurd hx (List.not_mem_nil x)) (depsBefore_nil _)
  rcases hordF with ⟨hdepsF, hgrayF⟩
  have hfold := sortedEmitAll_fold refs smaps outputJS outputJS ⟨[], []⟩
    (outputJS.length + 1) (outputJS.length + 1) (fun x hx => hx) hbnd hbnd
    (inv_init outputJS)
  rcases hfold with ⟨_, _, hMem, _⟩
  have haPush : a ∈ pushedNames (sortedEmitAll refs smaps outputJS (outputJS.length + 1)) := by
    obtain ⟨fa, hfa, horiga⟩ := List.mem_map.1 ha2
    rw [sortedEmitAll]
    exact hgrayF a (horiga ▸ hMem fa hfa)
  have hres := hdepsF a b ⟨hb, ha2, hb2⟩ (by rw [sortedEmitAll] at haPush; exact haPush)
  refine ⟨?_, haPush, ?_⟩
  · rw [sortedEmitAll]
    exact hres.1
  · rw [sortedEmitAll]
    exact hres.2

/-- Witness for C2: with `a.ts` referencing `b.ts` referencing `c.ts` and
artifacts enumerated in the unfavourable order `a.js, b.js, c.js`, sorted
emission pushes `c.ts` before `b.ts` before `a.ts`. -/
theorem claim2_dependencies_first_witness :
    ("b.ts" ∈ refsChain "a.ts" ∧ "c.ts" ∈ refsChain "b.ts") ∧
    List.indexOf "c.ts" (pushedNames (sortedEmitAll refsChain [] ojABC (ojABC.length + 1))) <
      List.indexOf "b.ts" (pushedNames (sortedEmitAll refsChain [] ojABC (ojABC.length + 1))) ∧
    List.indexOf "b.ts" (pushedNames (sortedEmitAll refsChain [] ojABC (ojABC.length + 1))) <
      List.indexOf "a.ts" (pushedNames (sortedEmitAll refsChain [] ojABC (ojABC.length + 1))) := by
  have hacyc : Acyclic (refRel refsChain ojABC) := by
    apply acyclic_of_rank _ rankChain
    intro a b hR
    rcases hR with ⟨h1, h2, h3⟩
    have hn : namesOf ojABC = ["a.ts", "b.ts", "c.ts"] := by decide
    rw [hn] at h2 h3
    simp only [List.mem_cons, List.not_mem_nil, or_false] at h2 h3
    rcases h2 with rfl | rfl | rfl <;> rcases h3 with rfl | rfl | rfl <;>
      revert h1 <;> decide
  have h1 := claim2_dependencies_first refsChain [] ojABC hacyc "a.ts" "b.ts"
    (by decide) (by decide) (by decide)
  have h2 := claim2_dependencies_first refsChain [] ojABC hacyc "b.ts" "c.ts"
    (by decide) (by decide) (by decide)
  exact ⟨⟨by decide, by decide⟩, h2.2.2, h1.2.2⟩

/-- Witness for C3: with the cyclic references `a.ts ↔ b.ts`, sorted
emission is budget-independent (terminates) and pushes each of the two
artifacts exactly once. -/
theorem claim3_cycle_terminates_once_witness :
    (namesOf ojAB).Nodup ∧
    sortedEmitAll refsCyc [] ojAB (ojAB.length + 1 + 5) =
      sortedEmitAll refsCyc [] ojAB (ojAB.length + 1) ∧
    (pushedNames (sortedEmitAll refsCyc [] ojAB (ojAB.length + 1))).Perm (namesOf ojAB) := by
  have h := claim3_cycle_terminates_once refsCyc [] ojAB (by decide)
  exact ⟨by decide, h.1 5, h.2⟩

end Proj

end GulpTs
